import Mathlib

/-!
Verification of the segmentation + caching + concurrent fan-out core of the
reader3 repository (src/book_info.py), as a shallow embedding in Lean 4.

Text is modelled as `List Char` (Python `str`).  Regular-expression based
processing is embedded as deterministic scanning functions mirroring the
exact semantics of the two compiled patterns:
  _PARAGRAPH_PATTERN = re.compile(r'<p[^>]*>(.*?)</p>', re.DOTALL)
  _HTML_TAG_PATTERN  = re.compile(r'<[^>]+>')
Recursive scanners take a fuel argument (the length of the scanned list
suffices) so that all definitions compute by kernel reduction.
-/

abbrev Chars := List Char

/-- Python `str.strip()` whitespace set (ASCII part, as used by the code). -/
def pyWhitespaceChar (c : Char) : Bool :=
  c = ' ' || c = '\t' || c = '\n' || c = '\r' || c = '\x0b' || c = '\x0c'

/-- Drop leading Python whitespace. -/
def pyDropLeft : Chars → Chars
  | [] => []
  | c :: cs => if pyWhitespaceChar c then pyDropLeft cs else c :: cs

/-- Python `str.strip()`: drop whitespace from both ends. -/
def pyStrip (s : Chars) : Chars :=
  (pyDropLeft (pyDropLeft s).reverse).reverse

/-- Python `str.lower()` (ASCII behaviour, which is all the code relies on). -/
def pyLower (s : Chars) : Chars := s.map Char.toLower

/-- Python substring containment `needle in hay`. -/
def containsSub (n : Chars) : Chars → Bool
  | [] => n.isPrefixOf []
  | c :: cs => n.isPrefixOf (c :: cs) || containsSub n cs

/-- One pass of `_HTML_TAG_PATTERN.sub('', s)`, i.e. removal of every
non-overlapping leftmost match of `<[^>]+>`: at a `<`, the greedy `[^>]+`
runs to the first later `>`; the match succeeds iff that run is non-empty
and the `>` exists.  Fuel-indexed so that it computes; `strip_tags` below
instantiates the fuel with the length of the input. -/
def stripTagsF : Nat → Chars → Chars
  | 0, s => s
  | _ + 1, [] => []
  | fuel + 1, c :: rest =>
    if c = '<' then
      let run := rest.takeWhile (fun d => d ≠ '>')
      if 0 < run.length ∧ run.length < rest.length then
        stripTagsF fuel (rest.drop (run.length + 1))
      else
        c :: stripTagsF fuel rest
    else
      c :: stripTagsF fuel rest

/-- `_HTML_TAG_PATTERN.sub('', s)`: strip HTML tags. -/
def strip_tags (s : Chars) : Chars := stripTagsF s.length s

/-- Clean (tag-stripped) length of a piece of markup, the measure the
splitter uses: `len(_HTML_TAG_PATTERN.sub('', p))`. -/
def cleanLen (s : Chars) : Nat := (strip_tags s).length

/-- Split a string at the first occurrence of the literal `</p>`:
returns the part before it and the part after it, or `none` when the
literal does not occur (the lazy `(.*?)</p>` with DOTALL). -/
def splitAtClose : Chars → Option (Chars × Chars)
  | [] => none
  | c :: cs =>
    if ['<', '/', 'p', '>'].isPrefixOf (c :: cs) then
      some ([], cs.drop 3)
    else
      match splitAtClose cs with
      | some (a, b) => some (c :: a, b)
      | none => none

/-- Attempt to match `_PARAGRAPH_PATTERN` = `<p[^>]*>(.*?)</p>` (DOTALL)
anchored at the start of `s`.  On success returns
(full match = group(0), inner = group(1), rest of the string after the
match).  The greedy `[^>]*` deterministically runs to the first `>` after
`<p`; the lazy `(.*?)` runs to the first `</p>` after that. -/
def matchPAt : Chars → Option (Chars × Chars × Chars)
  | '<' :: 'p' :: t =>
    let run := t.takeWhile (fun d => d ≠ '>')
    if run.length < t.length then
      match splitAtClose (t.drop (run.length + 1)) with
      | some (inner, rest) =>
        some ('<' :: 'p' :: (run ++ '>' :: (inner ++ ['<', '/', 'p', '>'])), inner, rest)
      | none => none
    else
      none
  | _ => none

/-- `_PARAGRAPH_PATTERN.finditer(content)`: leftmost non-overlapping
matches, scanning left to right and resuming after each match end.
Returns (group(0), group(1)) pairs.  Fuel-indexed; `findMatches`
instantiates the fuel. -/
def findMatchesF : Nat → Chars → List (Chars × Chars)
  | 0, _ => []
  | _ + 1, [] => []
  | fuel + 1, c :: cs =>
    match matchPAt (c :: cs) with
    | some (full, inner, rest) => (full, inner) :: findMatchesF fuel rest
    | none => findMatchesF fuel cs

def findMatches (s : Chars) : List (Chars × Chars) := findMatchesF s.length s

/-- The `paragraphs` list built by `_split_into_paragraph_groups`
(lines 264-269): keep `match.group(0)` for every match whose tag-stripped,
stripped `group(1)` is non-empty. -/
def paragraphs (content : Chars) : List Chars :=
  (findMatches content).filterMap
    (fun m => if pyStrip (strip_tags m.2) ≠ [] then some m.1 else none)

/-- `total_length = sum(len(_HTML_TAG_PATTERN.sub('', p)) for p in paragraphs)`. -/
def totalCleanLength (content : Chars) : Nat :=
  ((paragraphs content).map cleanLen).sum

/-- `target_length = max(min_length, total_length // max_groups)`
(integer floor division, as in the source). -/
def targetLength (content : Chars) (min_length max_groups : Nat) : Nat :=
  max min_length (totalCleanLength content / max_groups)

/-- The accumulation loop of `_split_into_paragraph_groups` (lines 279-296),
kept at the paragraph level: `gs` is the list of flushed groups (each a list
of paragraph markup strings), `cur`/`curLen` the current group and its
accumulated clean length.  A paragraph is appended to the current group,
then the group is flushed when
`(current_length >= target_length and len(groups) < max_groups - 1)
 or current_length >= target_length * 1.5`;
the comparison with `target_length * 1.5` is exact in Python (int-float
comparison, with `target_length * 1.5` exactly representable for every
realistic target length) and is modelled as `3 * target ≤ 2 * current_length`.  Remaining
paragraphs form the final group. -/
def groupLoop (target max_groups : Nat) :
    List Chars → List (List Chars) → List Chars → Nat → List (List Chars)
  | [], gs, cur, _ => if cur = [] then gs else gs ++ [cur]
  | p :: ps, gs, cur, curLen =>
    let cur' := cur ++ [p]
    let curLen' := curLen + cleanLen p
    if (target ≤ curLen' ∧ gs.length < max_groups - 1) ∨ 3 * target ≤ 2 * curLen' then
      groupLoop target max_groups ps (gs ++ [cur']) [] 0
    else
      groupLoop target max_groups ps gs cur' curLen'

/-- The groups of `_split_into_paragraph_groups` before the final
`'\n'.join` and `[:max_groups]` cap, as lists of paragraph strings. -/
def splitGroupsCore (content : Chars) (min_length max_groups : Nat) :
    List (List Chars) :=
  groupLoop (targetLength content min_length max_groups) max_groups
    (paragraphs content) [] [] 0

/-- `_split_into_paragraph_groups(content, min_length, max_groups)`
(lines 249-298): no paragraph matches → the stripped content as a single
group (or nothing when blank); no non-empty paragraphs → no groups;
otherwise the accumulated groups, each `'\n'.join`-ed, capped at
`max_groups`. -/
def split_into_paragraph_groups
    (content : Chars) (min_length max_groups : Nat) : List Chars :=
  if findMatches content = [] then
    if pyStrip content = [] then [] else [pyStrip content]
  else if paragraphs content = [] then
    []
  else
    ((splitGroupsCore content min_length max_groups).map
      (fun g => List.intercalate ['\n'] g)).take max_groups

/-- The explicit rejection marker checked by `_is_valid_response`. -/
def noContentMarker : Chars := "<NO_CONTENT>".toList

/-- The fixed list `explanatory_patterns` of `_is_valid_response`. -/
def explanatoryPatterns : List Chars :=
  [ "i appreciate".toList
  , "i need to clarify".toList
  , "i notice".toList
  , "i should mention".toList
  , "i should point out".toList
  , "just the front matter".toList
  , "just the table of contents".toList
  , "doesn't include any actual".toList
  , "lacks actual narrative".toList ]

/-- `_is_valid_response(response)` (lines 53-73): false on empty input,
false when the rejection marker occurs, false when the lowercased text
contains any explanatory pattern, true otherwise. -/
def is_valid_response (response : Chars) : Bool :=
  if response = [] then false
  else if containsSub noContentMarker response then false
  else !(explanatoryPatterns.any (fun p => containsSub p (pyLower response)))

/-!
## Persistent cache (ArtifactCache)

The cache writes one JSON file per key under a fixed directory.  The file
system is modelled as an association list from paths to file states; a file
state is either a well-formed record (the parsed JSON object, a string to
string dictionary) or malformed (anything on which `json.load` or
`data.get` raises — the code swallows the exception).  The JSON
serialisation round-trip performed by the Python standard library is
external to this repository and is modelled as the identity on records.
Write faults (disk full, permissions) are modelled by an explicit flag;
the code swallows them (`except Exception: pass`), so a faulted write
leaves the store unchanged.  Both operations are total functions — the
embedding of the fact that neither ever raises to its caller.
-/

inductive CacheFile where
  | good (record : List (Chars × Chars))
  | malformed
deriving DecidableEq

abbrev FileStore := List (Chars × CacheFile)

/-- `_get_cache_path(book_id)`: path `{book_id}_summary.json` inside the
fixed cache directory. -/
def get_cache_path (book_id : Chars) : Chars :=
  book_id ++ "_summary.json".toList

/-- Association-list lookup of a path in the file store. -/
def lookupStore : FileStore → Chars → Option CacheFile
  | [], _ => none
  | e :: es, p => if e.1 = p then some e.2 else lookupStore es p

/-- Overwrite (or create) the file at a path. -/
def insertStore : FileStore → Chars → CacheFile → FileStore
  | [], p, f => [(p, f)]
  | e :: es, p, f => if e.1 = p then (p, f) :: es else e :: insertStore es p f

/-- `dict.get(field)` on a parsed record. -/
def lookupRecord : List (Chars × Chars) → Chars → Option Chars
  | [], _ => none
  | e :: es, k => if e.1 = k then some e.2 else lookupRecord es k

/-- `_load_cached_summary(book_id)` (lines 30-40): missing file → `None`;
malformed file (any exception while opening/parsing/reading the field) →
`None`; otherwise `data.get("summary")`. -/
def load_cached_summary (st : FileStore) (book_id : Chars) : Option Chars :=
  match lookupStore st (get_cache_path book_id) with
  | none => none
  | some .malformed => none
  | some (.good record) => lookupRecord record "summary".toList

/-- `_save_summary(book_id, summary)` (lines 43-50): write
`{"summary": summary}` to the key path; on a write fault the exception
is swallowed and the store is unchanged. -/
def save_summary (writeFault : Bool) (st : FileStore) (book_id summary : Chars) :
    FileStore :=
  if writeFault then st
  else insertStore st (get_cache_path book_id) (.good [("summary".toList, summary)])

/-!
## Generation backend (GenerationClient)

`_fetch_from_claude` runs `subprocess.run(["claude", "-p", prompt],
capture_output=True, text=True, timeout=30)`.  The outcome of that external
invocation is modelled by `RunResult`; the prompt text only feeds the
backend and never influences the control flow of this module, so it is not
carried in the model.
-/

inductive RunResult where
  | completed (returncode : Int) (stdout stderr : Chars)
  | timedOut
  | exeNotFound
  | otherFailure
deriving DecidableEq

def timeoutSentinel : Chars := "Request timeout - try again later".toList

def signInSentinel : Chars := "Sign in to Claude Code CLI to enable this feature".toList

def notFoundSentinel : Chars := "Claude Code CLI not found".toList

/-- `_fetch_from_claude(prompt)` (lines 76-106): exit code 0 →
stripped stdout; non-zero exit with auth-related stderr → the sign-in
sentinel; non-zero exit otherwise → `None`; `TimeoutExpired` → the timeout
sentinel; `FileNotFoundError` → the not-found sentinel; any other
exception → `None`.  (`result.stderr.lower() if result.stderr else ""`
coincides with `pyLower` on the empty string.) -/
def fetch_from_claude (r : RunResult) : Option Chars :=
  match r with
  | .completed returncode stdout stderr =>
    if returncode = 0 then some (pyStrip stdout)
    else
      let error_msg := pyLower stderr
      if containsSub "auth".toList error_msg
          || containsSub "unauthorized".toList error_msg
          || containsSub "signed in".toList error_msg then
        some signInSentinel
      else none
  | .timedOut => some timeoutSentinel
  | .exeNotFound => some notFoundSentinel
  | .otherFailure => none

/-- Python truthiness of an `Optional[str]`. -/
def optTruthy : Option Chars → Bool
  | some c => c ≠ []
  | none => false

/-- Result of a single-shot getter: the returned string, the file store
after the call, and whether the generation backend was invoked. -/
structure GetterOut where
  text : Chars
  store : FileStore
  backendCalled : Bool
deriving DecidableEq

/-- The shared tail of the three single-shot getters (e.g. lines 155-160):
`result = _fetch_from_claude(prompt);
 if not result or not _is_valid_response(result): return "";
 _save_summary(key, result); return result`. -/
def fetchValidateSave (st : FileStore) (key : Chars) (writeFault : Bool)
    (backend : RunResult) : GetterOut :=
  match fetch_from_claude backend with
  | none => ⟨[], st, true⟩
  | some result =>
    if result = [] || !is_valid_response result then ⟨[], st, true⟩
    else ⟨result, save_summary writeFault st key result, true⟩

/-- `get_book_summary_cached` (lines 129-160): cache check under key
`{book_id}_summary` first, then the empty-content guard, then
fetch/validate/save.  Title and author only appear inside the prompt. -/
def get_book_summary_cached (st : FileStore) (book_id first_chapter_clean : Chars)
    (writeFault : Bool) (backend : RunResult) : GetterOut :=
  let key := book_id ++ "_summary".toList
  let cached := load_cached_summary st key
  if optTruthy cached then ⟨cached.getD [], st, false⟩
  else if first_chapter_clean = [] then ⟨[], st, false⟩
  else fetchValidateSave st key writeFault backend

/-- `get_chapter_prephrase` (lines 163-195): empty-content guard first,
then cache check under `{book_id}_prephrase_{md5(chapter_clean[:500])[:8]}`,
then fetch/validate/save.  `fp` models the md5-hexdigest-prefix
fingerprint, an uninterpreted parameter here. -/
def get_chapter_prephrase (fp : Chars → Chars) (st : FileStore)
    (book_id chapter_clean : Chars) (writeFault : Bool) (backend : RunResult) :
    GetterOut :=
  if chapter_clean = [] then ⟨[], st, false⟩
  else
    let key := book_id ++ "_prephrase_".toList ++ fp (chapter_clean.take 500)
    let cached := load_cached_summary st key
    if optTruthy cached then ⟨cached.getD [], st, false⟩
    else fetchValidateSave st key writeFault backend

/-- `get_ai_conclusion` (lines 198-246): empty-content guard first, then
cache check under `{book_id}_conclusion_{md5(clean_text[:500])[:8]}`, then
fetch/validate/save. -/
def get_ai_conclusion (fp : Chars → Chars) (st : FileStore)
    (book_id clean_text : Chars) (writeFault : Bool) (backend : RunResult) :
    GetterOut :=
  if clean_text = [] then ⟨[], st, false⟩
  else
    let key := book_id ++ "_conclusion_".toList ++ fp (clean_text.take 500)
    let cached := load_cached_summary st key
    if optTruthy cached then ⟨cached.getD [], st, false⟩
    else fetchValidateSave st key writeFault backend

/-- Result of the per-group annotation path: the optional teaser, the file
store after the call, whether the cache was consulted, and whether the
generation backend was invoked. -/
structure GroupOut where
  result : Option Chars
  store : FileStore
  cacheChecked : Bool
  backendCalled : Bool
deriving DecidableEq

/-- `_get_paragraph_group_summary(group_text, ...)` (lines 301-349):
clean and strip the HTML; return `None` for empty or sub-1000-character
clean text before touching cache or backend; otherwise check the cache
under `para_summary_{md5(clean_text[:200])[:8]}`, and on a miss
fetch/validate/save, returning `None` on failure or rejection. -/
def get_paragraph_group_summary (fp : Chars → Chars) (st : FileStore)
    (group_text : Chars) (writeFault : Bool) (backend : RunResult) : GroupOut :=
  let clean_text := pyStrip (strip_tags group_text)
  if clean_text = [] || clean_text.length < 1000 then ⟨none, st, false, false⟩
  else
    let key := "para_summary_".toList ++ fp (clean_text.take 200)
    let cached := load_cached_summary st key
    if optTruthy cached then ⟨some (cached.getD []), st, true, false⟩
    else
      match fetch_from_claude backend with
      | none => ⟨none, st, true, true⟩
      | some result =>
        if result = [] || !is_valid_response result then ⟨none, st, true, true⟩
        else ⟨some result, save_summary writeFault st key result, true, true⟩

/-- `get_paragraph_summaries(content, ...)` (lines 352-389): split the
content with the default parameters (min_length 500, max_groups 10), run
`_get_paragraph_group_summary` for every group concurrently via
`asyncio.gather`/`to_thread`, and keep the truthy results keyed by group
index (`{i: summary for i, summary in results if summary}`).  The
concurrent tasks are modelled as each reading the file store snapshot
taken when the fan-out starts; distinct groups use content-hash keys, so
no two tasks of one fan-out touch the same key.  `backend i` is the
backend outcome of group `i`'s call. -/
def get_paragraph_summaries (fp : Chars → Chars) (st : FileStore)
    (content : Chars) (writeFault : Bool) (backend : Nat → RunResult) :
    List (Nat × Chars) :=
  let groups := split_into_paragraph_groups content 500 10
  groups.enum.filterMap (fun ig =>
    match (get_paragraph_group_summary fp st ig.2 writeFault (backend ig.1)).result with
    | some s => if s = [] then none else some (ig.1, s)
    | none => none)

/-- Number of generation calls one fan-out issues. -/
def generation_call_count (fp : Chars → Chars) (st : FileStore)
    (content : Chars) (writeFault : Bool) (backend : Nat → RunResult) : Nat :=
  ((split_into_paragraph_groups content 500 10).enum.filter
    (fun ig =>
      (get_paragraph_group_summary fp st ig.2 writeFault (backend ig.1)).backendCalled)).length

/-- Lookup of a group index in the fan-out result mapping. -/
def lookupIdx : List (Nat × Chars) → Nat → Option Chars
  | [], _ => none
  | p :: ps, i => if p.1 = i then some p.2 else lookupIdx ps i

/-!
## Segmenter re-expressed in the words of the specification (for the
refinement claim about the grouping algorithm)

`specTargetLength` and `specSegment` transcribe spec steps 3-5 of the
Segmenter contract: the target length is the maximum of the hard minimum
and the total clean length divided by `max_groups`; paragraphs accumulate
in document order and a new group starts exactly when (a) the accumulated
clean length reaches the target and fewer than `max_groups - 1` groups
have been flushed so far, or (b) the accumulated clean length reaches
1.5 times the target regardless of the flush count; remaining paragraphs
form the final group.  Unlike the source loop, the flush condition here is
stated with an explicit count of flushed groups, and groups are emitted
head-first rather than appended to an accumulator.
-/

def specTargetLength (paras : List Chars) (min_group_chars max_groups : Nat) : Nat :=
  max min_group_chars ((paras.map cleanLen).sum / max_groups)

def specSegment (target max_groups : Nat) :
    List Chars → Nat → List Chars → Nat → List (List Chars)
  | [], _, cur, _ => if cur = [] then [] else [cur]
  | p :: ps, flushed, cur, curLen =>
    let cur' := cur ++ [p]
    let curLen' := curLen + cleanLen p
    if (target ≤ curLen' ∧ flushed < max_groups - 1) ∨ 3 * target ≤ 2 * curLen' then
      cur' :: specSegment target max_groups ps (flushed + 1) [] 0
    else
      specSegment target max_groups ps flushed cur' curLen'

/-- A concrete paragraph group whose clean text has exactly 1000
characters, used to exercise the per-group annotation path. -/
def exampleLongGroup : Chars :=
  '<' :: 'p' :: '>' :: (List.replicate 1000 'a' ++ "</p>".toList)

/-!
## Theorems

Helper lemmas first, then one theorem per claim of the specification
review (with witnesses and counterexamples where called for).
-/

theorem lookupStore_insertStore (st : FileStore) (p : Chars) (f : CacheFile) :
    lookupStore (insertStore st p f) p = some f := by
  induction st with
  | nil => simp [insertStore, lookupStore]
  | cons e es ih =>
    by_cases h : e.1 = p
    · simp [insertStore, h, lookupStore]
    · simp [insertStore, h, lookupStore, ih]

theorem load_save_roundtrip (st : FileStore) (k v : Chars) :
    load_cached_summary (save_summary false st k v) k = some v := by
  simp [load_cached_summary, save_summary, lookupStore_insertStore, lookupRecord]

/-- C8: for every key and every text value v, put(key, v) followed by
get(key) returns v, and a second put(key, v) followed by get(key) still
returns v, when the underlying storage does not fault. -/
theorem cache_put_get_roundtrip (st : FileStore) (k v : Chars) :
    load_cached_summary (save_summary false st k v) k = some v ∧
    load_cached_summary (save_summary false (save_summary false st k v) k v) k
      = some v :=
  ⟨load_save_roundtrip st k v, load_save_roundtrip (save_summary false st k v) k v⟩

/-- C9: cache get returns None whenever the stored record is missing or
malformed, and cache put leaves the store untouched on a write failure;
both operations are total functions of the store (the code swallows every
exception), so neither raises to its caller. -/
theorem cache_fault_degrades_to_miss (st : FileStore) (k v : Chars) :
    (lookupStore st (get_cache_path k) = none → load_cached_summary st k = none) ∧
    (lookupStore st (get_cache_path k) = some .malformed →
      load_cached_summary st k = none) ∧
    save_summary true st k v = st := by
  refine ⟨fun h => ?_, fun h => ?_, rfl⟩ <;> simp [load_cached_summary, h]

theorem cache_fault_degrades_to_miss_witness :
    load_cached_summary [] "b".toList = none ∧
    load_cached_summary [(get_cache_path "b".toList, CacheFile.malformed)] "b".toList
      = none ∧
    save_summary true [] "b".toList "v".toList = [] :=
  ⟨(cache_fault_degrades_to_miss [] "b".toList "v".toList).1 rfl,
   (cache_fault_degrades_to_miss [(get_cache_path "b".toList, CacheFile.malformed)]
      "b".toList "v".toList).2.1 (by simp [lookupStore]),
   (cache_fault_degrades_to_miss [] "b".toList "v".toList).2.2⟩

/-- C6: the validator satisfies the four concrete cases of the
specification, and as a total predicate it rejects exactly empty input,
input containing the rejection token, and input whose lowercase form
contains one of the fixed explanatory phrase fragments. -/
theorem validator_concrete_and_exact :
    is_valid_response [] = false ∧
    is_valid_response "<NO_CONTENT>".toList = false ∧
    is_valid_response "I should mention this text lacks narrative content".toList
      = false ∧
    is_valid_response "The moor stretched endlessly into fog.".toList = true ∧
    ∀ r : Chars, is_valid_response r = false ↔
      (r = [] ∨ containsSub noContentMarker r = true ∨
        ∃ p ∈ explanatoryPatterns, containsSub p (pyLower r) = true) := by
  refine ⟨by decide, by decide, by decide, by decide, fun r => ?_⟩
  unfold is_valid_response
  by_cases h1 : r = []
  · simp [h1]
  · by_cases h2 : containsSub noContentMarker r = true
    · simp [h1, h2]
    · simp [h1, h2, List.any_eq_true]

theorem is_valid_response_ne_nil {t : Chars} (h : is_valid_response t = true) :
    t ≠ [] := by
  intro hn
  rw [hn] at h
  exact absurd h (by decide)

theorem fetchValidateSave_valid (st : FileStore) (key : Chars) (wf : Bool)
    (backend : RunResult) (t : Chars) (hf : fetch_from_claude backend = some t)
    (hv : is_valid_response t = true) :
    fetchValidateSave st key wf backend = ⟨t, save_summary wf st key t, true⟩ := by
  simp [fetchValidateSave, hf, hv, is_valid_response_ne_nil hv]

theorem fetchValidateSave_fail (st : FileStore) (key : Chars) (wf : Bool)
    (backend : RunResult)
    (h : fetch_from_claude backend = none ∨
         ∃ t, fetch_from_claude backend = some t ∧ is_valid_response t = false) :
    fetchValidateSave st key wf backend = ⟨[], st, true⟩ := by
  rcases h with h | ⟨t, hf, hv⟩
  · simp [fetchValidateSave, h]
  · by_cases ht : t = []
    · simp [fetchValidateSave, hf, ht]
    · simp [fetchValidateSave, hf, ht, hv]

theorem get_book_summary_cached_miss (st : FileStore) (bid c : Chars) (wf : Bool)
    (backend : RunResult)
    (hm : optTruthy (load_cached_summary st (bid ++ "_summary".toList)) = false)
    (hc : c ≠ []) :
    get_book_summary_cached st bid c wf backend
      = fetchValidateSave st (bid ++ "_summary".toList) wf backend := by
  simp only [get_book_summary_cached]
  rw [hm]
  simp [hc]

theorem get_chapter_prephrase_miss (fp : Chars → Chars) (st : FileStore)
    (bid c : Chars) (wf : Bool) (backend : RunResult)
    (hm : optTruthy (load_cached_summary st
            (bid ++ "_prephrase_".toList ++ fp (c.take 500))) = false)
    (hc : c ≠ []) :
    get_chapter_prephrase fp st bid c wf backend
      = fetchValidateSave st (bid ++ "_prephrase_".toList ++ fp (c.take 500))
          wf backend := by
  simp only [get_chapter_prephrase]
  rw [if_neg hc, hm]
  simp

theorem get_ai_conclusion_miss (fp : Chars → Chars) (st : FileStore)
    (bid c : Chars) (wf : Bool) (backend : RunResult)
    (hm : optTruthy (load_cached_summary st
            (bid ++ "_conclusion_".toList ++ fp (c.take 500))) = false)
    (hc : c ≠ []) :
    get_ai_conclusion fp st bid c wf backend
      = fetchValidateSave st (bid ++ "_conclusion_".toList ++ fp (c.take 500))
          wf backend := by
  simp only [get_ai_conclusion]
  rw [if_neg hc, hm]
  simp

theorem load_cached_summary_empty (k : Chars) :
    load_cached_summary [] k = none := rfl

set_option maxRecDepth 10000

/-- C2: the claim that only Success outcomes are written to the cache is
violated by the code.  A call that times out makes `_fetch_from_claude`
return the sentinel string "Request timeout - try again later" instead of
None — contradicting its own docstring ("The response text, or None if
the request failed") — and that sentinel passes `_is_valid_response`, so
`get_book_summary_cached` persists it to the cache and returns it, and the
multi-segment path `_get_paragraph_group_summary` likewise caches it and
feeds it into the result mapping.  Only the "non-empty user-facing
message" half of the claim holds. -/
theorem failure_sentinels_written_to_cache :
    (get_book_summary_cached [] "b".toList "x".toList false .timedOut).text
      = timeoutSentinel ∧
    load_cached_summary
      (get_book_summary_cached [] "b".toList "x".toList false .timedOut).store
      ("b".toList ++ "_summary".toList) = some timeoutSentinel ∧
    (get_paragraph_group_summary (fun _ => []) [] exampleLongGroup false
        .timedOut).result = some timeoutSentinel ∧
    load_cached_summary
      (get_paragraph_group_summary (fun _ => []) [] exampleLongGroup false
        .timedOut).store
      "para_summary_".toList = some timeoutSentinel ∧
    timeoutSentinel ≠ [] := by
  refine ⟨by decide, by decide, by decide, by decide, by decide⟩

/-- C7 counterexample: on a timeout — a failure mode of the backend call —
`get_book_summary_cached` does not return the empty string. -/
theorem getter_timeout_returns_sentinel :
    (get_book_summary_cached [] "b".toList "x".toList false .timedOut).text
      ≠ [] := by decide

/-- C7 as amended: with an uncached key and non-empty content, the three
single-shot getters return the empty string when the backend yields no
result (generic failure) or a validator-rejected text; but a timeout, a
missing backend executable, or an authentication failure (non-zero exit
with auth-related stderr) yield the corresponding sentinel string, which
passes the validator and is returned verbatim rather than as the empty
string. -/
theorem single_shot_failure_return_values (bid content : Chars)
    (fp : Chars → Chars) (wf : Bool) (hc : content ≠ []) :
    (∀ backend, (fetch_from_claude backend = none ∨
        ∃ t, fetch_from_claude backend = some t ∧ is_valid_response t = false) →
      (get_book_summary_cached [] bid content wf backend).text = [] ∧
      (get_chapter_prephrase fp [] bid content wf backend).text = [] ∧
      (get_ai_conclusion fp [] bid content wf backend).text = []) ∧
    ((get_book_summary_cached [] bid content wf .timedOut).text = timeoutSentinel ∧
     (get_chapter_prephrase fp [] bid content wf .timedOut).text = timeoutSentinel ∧
     (get_ai_conclusion fp [] bid content wf .timedOut).text = timeoutSentinel) ∧
    ((get_book_summary_cached [] bid content wf .exeNotFound).text
        = notFoundSentinel ∧
     (get_chapter_prephrase fp [] bid content wf .exeNotFound).text
        = notFoundSentinel ∧
     (get_ai_conclusion fp [] bid content wf .exeNotFound).text
        = notFoundSentinel) ∧
    (∀ (rc : Int) (out err : Chars), rc ≠ 0 →
      (containsSub "auth".toList (pyLower err)
        || containsSub "unauthorized".toList (pyLower err)
        || containsSub "signed in".toList (pyLower err)) = true →
      (get_book_summary_cached [] bid content wf (.completed rc out err)).text
        = signInSentinel ∧
      (get_chapter_prephrase fp [] bid content wf (.completed rc out err)).text
        = signInSentinel ∧
      (get_ai_conclusion fp [] bid content wf (.completed rc out err)).text
        = signInSentinel) := by
  have hb := fun backend =>
    get_book_summary_cached_miss [] bid content wf backend rfl hc
  have hp := fun backend =>
    get_chapter_prephrase_miss fp [] bid content wf backend rfl hc
  have ha := fun backend =>
    get_ai_conclusion_miss fp [] bid content wf backend rfl hc
  refine ⟨fun backend h => ?_, ?_, ?_, fun rc out err hrc hcond => ?_⟩
  · rw [hb, hp, ha, fetchValidateSave_fail _ _ _ _ h,
      fetchValidateSave_fail _ _ _ _ h, fetchValidateSave_fail _ _ _ _ h]
    exact ⟨rfl, rfl, rfl⟩
  · have hf : fetch_from_claude .timedOut = some timeoutSentinel := rfl
    rw [hb, hp, ha, fetchValidateSave_valid _ _ _ _ _ hf (by decide),
      fetchValidateSave_valid _ _ _ _ _ hf (by decide),
      fetchValidateSave_valid _ _ _ _ _ hf (by decide)]
    exact ⟨rfl, rfl, rfl⟩
  · have hf : fetch_from_claude .exeNotFound = some notFoundSentinel := rfl
    rw [hb, hp, ha, fetchValidateSave_valid _ _ _ _ _ hf (by decide),
      fetchValidateSave_valid _ _ _ _ _ hf (by decide),
      fetchValidateSave_valid _ _ _ _ _ hf (by decide)]
    exact ⟨rfl, rfl, rfl⟩
  · have hf : fetch_from_claude (.completed rc out err) = some signInSentinel := by
      simp only [fetch_from_claude]
      rw [if_neg hrc, hcond]
      simp
    rw [hb, hp, ha, fetchValidateSave_valid _ _ _ _ _ hf (by decide),
      fetchValidateSave_valid _ _ _ _ _ hf (by decide),
      fetchValidateSave_valid _ _ _ _ _ hf (by decide)]
    exact ⟨rfl, rfl, rfl⟩

theorem single_shot_failure_return_values_witness :
    (get_book_summary_cached [] "b".toList "x".toList false .otherFailure).text
      = [] ∧
    (get_chapter_prephrase (fun _ => []) [] "b".toList "x".toList false
        .timedOut).text = timeoutSentinel := by
  have h := single_shot_failure_return_values "b".toList "x".toList
    (fun _ => []) false (by decide)
  exact ⟨(h.1 .otherFailure (Or.inl rfl)).1, h.2.1.2.1⟩

theorem gps_short (fp : Chars → Chars) (st : FileStore) (g : Chars) (wf : Bool)
    (backend : RunResult) (h : (pyStrip (strip_tags g)).length < 1000) :
    get_paragraph_group_summary fp st g wf backend = ⟨none, st, false, false⟩ := by
  simp [get_paragraph_group_summary, h]

theorem gps_backendCalled (fp : Chars → Chars) (st : FileStore) (g : Chars)
    (wf : Bool) (backend : RunResult) :
    (get_paragraph_group_summary fp st g wf backend).backendCalled
      = (decide (1000 ≤ (pyStrip (strip_tags g)).length)
         && !optTruthy (load_cached_summary st
              ("para_summary_".toList ++ fp ((pyStrip (strip_tags g)).take 200)))) := by
  by_cases h : (pyStrip (strip_tags g)).length < 1000
  · rw [gps_short fp st g wf backend h]
    have h2 : ¬ (1000 ≤ (pyStrip (strip_tags g)).length) := by omega
    simp [h2]
  · have h1000 : 1000 ≤ (pyStrip (strip_tags g)).length := by omega
    have hne : ¬ (pyStrip (strip_tags g) = []) := by
      intro he
      rw [he] at h1000
      simp at h1000
    simp only [get_paragraph_group_summary]
    generalize hk : "para_summary_".toList ++ fp ((pyStrip (strip_tags g)).take 200) = key
    by_cases hcache : optTruthy (load_cached_summary st key) = true
    · simp [hne, h, hcache, h1000]
    · simp only [Bool.not_eq_true] at hcache
      cases hf : fetch_from_claude backend with
      | none => simp [hne, h, hcache, hf, h1000]
      | some t =>
        simp [hne, h, hcache, hf, h1000]
        split <;> simp

theorem nocontent_invalid (t : Chars) (h : containsSub noContentMarker t = true) :
    is_valid_response t = false := by
  by_cases ht : t = [] <;> simp [is_valid_response, ht, h]

theorem gps_result_invalid (fp : Chars → Chars) (st : FileStore) (g : Chars)
    (wf : Bool) (backend : RunResult) (t : Chars)
    (hmiss : optTruthy (load_cached_summary st
      ("para_summary_".toList ++ fp ((pyStrip (strip_tags g)).take 200))) = false)
    (hf : fetch_from_claude backend = some t)
    (hv : is_valid_response t = false) :
    (get_paragraph_group_summary fp st g wf backend).result = none := by
  by_cases h : (pyStrip (strip_tags g)).length < 1000
  · rw [gps_short fp st g wf backend h]
  · simp only [get_paragraph_group_summary]
    generalize hk : "para_summary_".toList ++ fp ((pyStrip (strip_tags g)).take 200) = key
    rw [hk] at hmiss
    by_cases ht : t = [] <;> simp [h, hmiss, hf, hv, ht] <;> split <;> rfl

theorem lookupIdx_enumFrom (G : Nat → Chars → Option Chars) :
    ∀ (l : List Chars) (n i : Nat),
      lookupIdx
        ((l.enumFrom n).filterMap (fun p =>
          match G p.1 p.2 with
          | some s => if s = [] then none else some (p.1, s)
          | none => none)) i
      = if i < n then none
        else
          match l.get? (i - n) with
          | none => none
          | some g =>
            match G i g with
            | some s => if s = [] then none else some s
            | none => none := by
  intro l
  induction l with
  | nil =>
    intro n i
    by_cases h : i < n <;> simp [h, lookupIdx]
  | cons g l ih =>
    intro n i
    rw [show List.enumFrom n (g :: l) = (n, g) :: List.enumFrom (n + 1) l from rfl]
    cases hG : G n g with
    | none =>
      simp only [List.filterMap_cons, hG]
      rw [ih (n + 1) i]
      by_cases h1 : i < n
      · rw [if_pos (by omega : i < n + 1), if_pos h1]
      · by_cases h2 : i = n
        · subst h2
          rw [if_pos (by omega : i < i + 1), if_neg h1]
          simp [hG]
        · rw [if_neg (by omega : ¬ i < n + 1), if_neg h1]
          have h4 : i - n = (i - (n + 1)) + 1 := by omega
          rw [h4]
          rfl
    | some s =>
      by_cases hs : s = []
      · subst hs
        simp only [List.filterMap_cons, hG, eq_self_iff_true, if_true]
        rw [ih (n + 1) i]
        by_cases h1 : i < n
        · rw [if_pos (by omega : i < n + 1), if_pos h1]
        · by_cases h2 : i = n
          · subst h2
            rw [if_pos (by omega : i < i + 1), if_neg h1]
            simp [hG]
          · rw [if_neg (by omega : ¬ i < n + 1), if_neg h1]
            have h4 : i - n = (i - (n + 1)) + 1 := by omega
            rw [h4]
            rfl
      · simp only [List.filterMap_cons, hG, if_neg hs]
        simp only [lookupIdx]
        by_cases h2 : n = i
        · subst h2
          rw [if_pos rfl, if_neg (by omega : ¬ n < n)]
          simp [hG, hs]
        · rw [if_neg h2, ih (n + 1) i]
          by_cases h1 : i < n
          · rw [if_pos (by omega : i < n + 1), if_pos h1]
          · rw [if_neg (by omega : ¬ i < n + 1), if_neg h1]
            have h4 : i - n = (i - (n + 1)) + 1 := by omega
            rw [h4]
            rfl

theorem lookupIdx_fanout (fp : Chars → Chars) (st : FileStore) (content : Chars)
    (wf : Bool) (backend : Nat → RunResult) (i : Nat) :
    lookupIdx (get_paragraph_summaries fp st content wf backend) i
      = match (split_into_paragraph_groups content 500 10).get? i with
        | none => none
        | some g =>
          match (get_paragraph_group_summary fp st g wf (backend i)).result with
          | some s => if s = [] then none else some s
          | none => none := by
  have h := lookupIdx_enumFrom
    (fun j g => (get_paragraph_group_summary fp st g wf (backend j)).result)
    (split_into_paragraph_groups content 500 10) 0 i
  rw [if_neg (Nat.not_lt_zero i), Nat.sub_zero] at h
  exact h

/-- C10: a group whose tag-stripped clean text is empty or shorter than
1000 characters makes the per-group annotation path return None without
consulting the cache or invoking the generation backend, and that group's
index is absent from the fan-out result mapping. -/
theorem short_group_skipped (fp : Chars → Chars) (st : FileStore) (wf : Bool) :
    (∀ g backend, (pyStrip (strip_tags g)).length < 1000 →
      get_paragraph_group_summary fp st g wf backend
        = ⟨none, st, false, false⟩) ∧
    (∀ content backend i g,
      (split_into_paragraph_groups content 500 10).get? i = some g →
      (pyStrip (strip_tags g)).length < 1000 →
      lookupIdx (get_paragraph_summaries fp st content wf backend) i = none) := by
  refine ⟨fun g backend h => gps_short fp st g wf backend h,
    fun content backend i g hg h => ?_⟩
  rw [lookupIdx_fanout fp st content wf backend i, hg]
  simp [gps_short fp st g wf (backend i) h]

theorem short_group_skipped_witness :
    get_paragraph_group_summary (fun _ => []) [] "<p>hi</p>".toList false
        .otherFailure = ⟨none, [], false, false⟩ ∧
    lookupIdx (get_paragraph_summaries (fun _ => []) [] "<p>hi</p>".toList false
        (fun _ => .otherFailure)) 0 = none := by
  have h := short_group_skipped (fun _ => []) [] false
  exact ⟨h.1 "<p>hi</p>".toList .otherFailure (by decide),
    h.2 "<p>hi</p>".toList (fun _ => .otherFailure) 0 "<p>hi</p>".toList
      (by decide) (by decide)⟩

/-- C3 counterexample: the fan-out does not issue one generation call per
group not already cached.  On the chapter "&lt;p&gt;hello world&lt;/p&gt;"
there is exactly one group, nothing is cached for it (the store is empty),
yet zero generation calls are issued, because the clean text is shorter
than 1000 characters. -/
theorem fanout_call_per_uncached_group_fails :
    (split_into_paragraph_groups "<p>hello world</p>".toList 500 10).length = 1 ∧
    load_cached_summary []
      ("para_summary_".toList ++
        (fun _ => ([] : Chars))
          ((pyStrip (strip_tags "<p>hello world</p>".toList)).take 200)) = none ∧
    generation_call_count (fun _ => []) [] "<p>hello world</p>".toList false
      (fun _ => .otherFailure) = 0 := by
  refine ⟨by decide, by decide, by decide⟩

/-- C3 as amended: the fan-out issues one generation call per group not
already cached whose clean (tag-stripped, stripped) text has at least 1000
characters — shorter groups issue no call and contribute no entry; a group
whose generated text contains the rejection marker contributes no entry to
the returned mapping; and the mapping holds exactly the truthy per-group
results under their original group indices, with no extra indices. -/
theorem fanout_mapping_characterization (fp : Chars → Chars) (st : FileStore)
    (content : Chars) (wf : Bool) (backend : Nat → RunResult) :
    (∀ i, lookupIdx (get_paragraph_summaries fp st content wf backend) i
      = match (split_into_paragraph_groups content 500 10).get? i with
        | none => none
        | some g =>
          match (get_paragraph_group_summary fp st g wf (backend i)).result with
          | some s => if s = [] then none else some s
          | none => none) ∧
    (∀ i g t, (split_into_paragraph_groups content 500 10).get? i = some g →
      optTruthy (load_cached_summary st
        ("para_summary_".toList ++ fp ((pyStrip (strip_tags g)).take 200))) = false →
      fetch_from_claude (backend i) = some t →
      containsSub noContentMarker t = true →
      lookupIdx (get_paragraph_summaries fp st content wf backend) i = none) ∧
    generation_call_count fp st content wf backend
      = (((split_into_paragraph_groups content 500 10).enum).filter
          (fun ig => decide (1000 ≤ (pyStrip (strip_tags ig.2)).length)
            && !optTruthy (load_cached_summary st
                ("para_summary_".toList
                  ++ fp ((pyStrip (strip_tags ig.2)).take 200))))).length := by
  refine ⟨fun i => lookupIdx_fanout fp st content wf backend i,
    fun i g t hg hmiss hf hnc => ?_, ?_⟩
  · rw [lookupIdx_fanout fp st content wf backend i, hg]
    simp [gps_result_invalid fp st g wf (backend i) t hmiss hf
      (nocontent_invalid t hnc)]
  · unfold generation_call_count
    congr 1
    apply List.filter_congr
    intro x _
    exact gps_backendCalled fp st x.2 wf (backend x.1)

theorem fanout_mapping_characterization_witness :
    lookupIdx (get_paragraph_summaries (fun _ => ([] : Chars)) []
      "<p>hello world</p>".toList false
      (fun _ => .completed 0 "<NO_CONTENT>".toList [])) 0 = none :=
  (fanout_mapping_characterization (fun _ => []) [] "<p>hello world</p>".toList
    false (fun _ => .completed 0 "<NO_CONTENT>".toList [])).2.1 0
    "<p>hello world</p>".toList "<NO_CONTENT>".toList
    (by decide) (by decide) (by decide) (by decide)

theorem groupLoop_join (target M : Nat) :
    ∀ (ps : List Chars) (gs : List (List Chars)) (cur : List Chars) (n : Nat),
      (groupLoop target M ps gs cur n).flatten = gs.flatten ++ cur ++ ps := by
  intro ps
  induction ps with
  | nil =>
    intro gs cur n
    by_cases h : cur = [] <;> simp [groupLoop, h]
  | cons p ps ih =>
    intro gs cur n
    simp only [groupLoop]
    split
    · rw [ih]
      simp
    · rw [ih]
      simp

/-- C1 counterexample: concatenating the groups returned by the splitter
does not reproduce the original input byte-for-byte; on
"&lt;p&gt;a&lt;/p&gt;&lt;p&gt;b&lt;/p&gt;" the single group carries an
inserted newline between the two paragraphs. -/
theorem segmenter_not_byte_lossless :
    (split_into_paragraph_groups "<p>a</p><p>b</p>".toList 500 10).flatten
      ≠ "<p>a</p><p>b</p>".toList := by decide

/-- C1 as amended: the splitter is lossless at the paragraph level, not at
the byte level: concatenating the paragraph lists of the groups (before
the max_groups cap and the newline join) in index order reproduces exactly
the retained non-empty paragraph matches in document order — the grouping
neither reorders, duplicates nor drops paragraphs.  The original input is
not reproduced byte-for-byte, because content outside paragraph matches
and whitespace-only paragraphs are discarded and each group joins its
paragraphs with a newline separator. -/
theorem segmenter_paragraph_partition (content : Chars)
    (min_length max_groups : Nat) :
    (splitGroupsCore content min_length max_groups).flatten = paragraphs content := by
  unfold splitGroupsCore
  rw [groupLoop_join]
  simp

theorem groupLoop_eq_specSegment (target M : Nat) :
    ∀ (ps : List Chars) (gs : List (List Chars)) (cur : List Chars) (n : Nat),
      groupLoop target M ps gs cur n
        = gs ++ specSegment target M ps gs.length cur n := by
  intro ps
  induction ps with
  | nil =>
    intro gs cur n
    by_cases h : cur = [] <;> simp [groupLoop, specSegment, h]
  | cons p ps ih =>
    intro gs cur n
    simp only [groupLoop, specSegment]
    by_cases hc : (target ≤ n + cleanLen p ∧ gs.length < M - 1)
        ∨ 3 * target ≤ 2 * (n + cleanLen p)
    · rw [if_pos hc, if_pos hc, ih]
      simp
    · rw [if_neg hc, if_neg hc]
      exact ih gs (cur ++ [p]) _

/-- C5: the splitter computes
target_length = max(min_group_chars, total_clean_length / max_groups)
(integer division) over the non-empty paragraphs, and its accumulation
loop coincides with the specification transcription `specSegment`: a new
group starts exactly when (a) the accumulated clean length reaches the
target and fewer than max_groups - 1 groups have been flushed so far, or
(b) the accumulated clean length reaches 1.5 times the target regardless
of the flush count; remaining paragraphs form the final group. -/
theorem segmenter_algorithm_matches_spec (content : Chars) (K M : Nat) :
    targetLength content K M
      = max K (((paragraphs content).map cleanLen).sum / M) ∧
    specTargetLength (paragraphs content) K M = targetLength content K M ∧
    splitGroupsCore content K M
      = specSegment (specTargetLength (paragraphs content) K M) M
          (paragraphs content) 0 [] 0 := by
  refine ⟨rfl, rfl, ?_⟩
  unfold splitGroupsCore
  rw [groupLoop_eq_specSegment]
  simp
  rfl

theorem stripTagsF_congr :
    ∀ (f1 f2 : Nat) (s : Chars), s.length ≤ f1 → s.length ≤ f2 →
      stripTagsF f1 s = stripTagsF f2 s := by
  intro f1
  induction f1 with
  | zero =>
    intro f2 s h1 _
    have hs : s = [] := List.eq_nil_of_length_eq_zero (Nat.le_zero.mp h1)
    subst hs
    cases f2 <;> rfl
  | succ f ih =>
    intro f2 s h1 h2
    cases s with
    | nil => cases f2 <;> rfl
    | cons c rest =>
      cases f2 with
      | zero => simp at h2
      | succ f2' =>
        simp only [List.length_cons, Nat.add_le_add_iff_right] at h1 h2
        simp only [stripTagsF]
        by_cases hc : c = '<'
        · rw [if_pos hc, if_pos hc]
          by_cases hcond : 0 < (rest.takeWhile (fun d => d ≠ '>')).length ∧
              (rest.takeWhile (fun d => d ≠ '>')).length < rest.length
          · rw [if_pos hcond, if_pos hcond]
            apply ih
            · simp only [List.length_drop]
              omega
            · simp only [List.length_drop]
              omega
          · rw [if_neg hcond, if_neg hcond]
            rw [ih f2' rest h1 h2]
        · rw [if_neg hc, if_neg hc, ih f2' rest h1 h2]

theorem strip_tags_cons_lt (rest : Chars) :
    strip_tags ('<' :: rest)
      = if 0 < (rest.takeWhile (fun d => d ≠ '>')).length ∧
           (rest.takeWhile (fun d => d ≠ '>')).length < rest.length
        then strip_tags (rest.drop ((rest.takeWhile (fun d => d ≠ '>')).length + 1))
        else '<' :: strip_tags rest := by
  have e : strip_tags ('<' :: rest)
      = if 0 < (rest.takeWhile (fun d => d ≠ '>')).length ∧
           (rest.takeWhile (fun d => d ≠ '>')).length < rest.length
        then stripTagsF rest.length
          (rest.drop ((rest.takeWhile (fun d => d ≠ '>')).length + 1))
        else '<' :: stripTagsF rest.length rest := by
    simp [strip_tags, stripTagsF]
  rw [e]
  by_cases hcond : 0 < (rest.takeWhile (fun d => d ≠ '>')).length ∧
      (rest.takeWhile (fun d => d ≠ '>')).length < rest.length
  · rw [if_pos hcond, if_pos hcond]
    apply stripTagsF_congr
    · simp only [List.length_drop]
      omega
    · exact le_rfl
  · rw [if_neg hcond, if_neg hcond]
    rfl

theorem strip_tags_cons_ne (c : Char) (rest : Chars) (h : ¬ c = '<') :
    strip_tags (c :: rest) = c :: strip_tags rest := by
  show stripTagsF (rest.length + 1) (c :: rest) = _
  simp [stripTagsF, h, strip_tags]

theorem takeWhile_append_left (f : Char → Bool) :
    ∀ (l r : Chars), (∃ x ∈ l, f x = false) →
      (l ++ r).takeWhile f = l.takeWhile f := by
  intro l
  induction l with
  | nil =>
    intro r h
    rcases h with ⟨x, hx, _⟩
    cases hx
  | cons a l ih =>
    intro r h
    by_cases ha : f a
    · rw [List.cons_append, List.takeWhile_cons, if_pos ha,
        List.takeWhile_cons, if_pos ha, ih]
      rcases h with ⟨x, hx, hfx⟩
      rcases List.mem_cons.mp hx with rfl | hx'
      · rw [ha] at hfx
        cases hfx
      · exact ⟨x, hx', hfx⟩
    · rw [List.cons_append, List.takeWhile_cons, if_neg ha,
        List.takeWhile_cons, if_neg ha]

theorem takeWhile_length_lt (f : Char → Bool) :
    ∀ (l : Chars), (∃ x ∈ l, f x = false) →
      (l.takeWhile f).length < l.length := by
  intro l
  induction l with
  | nil =>
    intro h
    rcases h with ⟨x, hx, _⟩
    cases hx
  | cons a l ih =>
    intro h
    by_cases ha : f a
    · rw [List.takeWhile_cons, if_pos ha]
      simp only [List.length_cons, Nat.add_lt_add_iff_right]
      apply ih
      rcases h with ⟨x, hx, hfx⟩
      rcases List.mem_cons.mp hx with rfl | hx'
      · rw [ha] at hfx
        cases hfx
      · exact ⟨x, hx', hfx⟩
    · rw [List.takeWhile_cons, if_neg ha]
      simp

theorem getLast?_drop_of_ne_nil (l : Chars) (k : Nat) (h : l.drop k ≠ []) :
    (l.drop k).getLast? = l.getLast? := by
  conv_rhs => rw [← List.take_append_drop k l]
  rw [List.getLast?_append]
  cases hd : (l.drop k).getLast? with
  | none =>
    rw [List.getLast?_eq_none_iff] at hd
    exact absurd hd h
  | some a => simp [Option.or]

theorem strip_tags_append_aux :
    ∀ (n : Nat) (p : Chars), p.length ≤ n → (p = [] ∨ p.getLast? = some '>') →
      ∀ r, strip_tags (p ++ r) = strip_tags p ++ strip_tags r := by
  intro n
  induction n with
  | zero =>
    intro p hl _ r
    have hp : p = [] := List.eq_nil_of_length_eq_zero (Nat.le_zero.mp hl)
    subst hp
    simp [strip_tags, stripTagsF]
  | succ n ih =>
    intro p hl hg r
    cases p with
    | nil => simp [strip_tags, stripTagsF]
    | cons c p' =>
      have hg' : (c :: p').getLast? = some '>' := by
        rcases hg with h | h
        · cases h
        · exact h
      simp only [List.length_cons, Nat.add_le_add_iff_right] at hl
      by_cases hc : c = '<'
      · subst hc
        have hp' : p' ≠ [] := by
          intro he
          subst he
          rw [List.getLast?_singleton] at hg'
          exact absurd hg' (by decide)
        have hgl : p'.getLast? = some '>' := by
          cases p' with
          | nil => exact absurd rfl hp'
          | cons d q => rwa [List.getLast?_cons_cons] at hg'
        have hmem : '>' ∈ p' := List.mem_of_getLast?_eq_some hgl
        have hex : ∃ x ∈ p', (fun d => decide (d ≠ '>')) x = false :=
          ⟨'>', hmem, by simp⟩
        have htw : ((p' ++ r).takeWhile (fun d => d ≠ '>'))
            = p'.takeWhile (fun d => d ≠ '>') := takeWhile_append_left _ p' r hex
        have hlt : (p'.takeWhile (fun d => d ≠ '>')).length < p'.length :=
          takeWhile_length_lt _ p' hex
        rw [List.cons_append, strip_tags_cons_lt (p' ++ r), strip_tags_cons_lt p', htw]
        by_cases hrun : 0 < (p'.takeWhile (fun d => d ≠ '>')).length
        · rw [if_pos ⟨hrun, by rw [List.length_append]; omega⟩,
            if_pos ⟨hrun, hlt⟩]
          rw [List.drop_append_of_le_length (by omega)]
          apply ih
          · simp only [List.length_drop]
            omega
          · by_cases hd : p'.drop ((p'.takeWhile (fun d => d ≠ '>')).length + 1) = []
            · exact Or.inl hd
            · right
              rw [getLast?_drop_of_ne_nil p' _ hd]
              exact hgl
        · have hneg1 : ¬ (0 < (p'.takeWhile (fun d => d ≠ '>')).length ∧
              (p'.takeWhile (fun d => d ≠ '>')).length < (p' ++ r).length) := by
            intro hcc
            exact hrun hcc.1
          have hneg2 : ¬ (0 < (p'.takeWhile (fun d => d ≠ '>')).length ∧
              (p'.takeWhile (fun d => d ≠ '>')).length < p'.length) := by
            intro hcc
            exact hrun hcc.1
          rw [if_neg hneg1, if_neg hneg2]
          simp [ih p' hl (Or.inr hgl) r]
      · have hg2 : p' = [] ∨ p'.getLast? = some '>' := by
          cases p' with
          | nil => exact Or.inl rfl
          | cons d q =>
            right
            rwa [List.getLast?_cons_cons] at hg'
        rw [List.cons_append, strip_tags_cons_ne c _ hc, strip_tags_cons_ne c _ hc,
          ih p' hl hg2 r, List.cons_append]

theorem strip_tags_append (p : Chars) (hg : p = [] ∨ p.getLast? = some '>')
    (r : Chars) : strip_tags (p ++ r) = strip_tags p ++ strip_tags r :=
  strip_tags_append_aux p.length p le_rfl hg r

theorem strip_tags_intercalate_ge :
    ∀ (g : List Chars), (∀ p ∈ g, p.getLast? = some '>') →
      (g.map cleanLen).sum ≤ cleanLen (List.intercalate ['\n'] g) := by
  intro g
  induction g with
  | nil =>
    intro _
    simp [cleanLen, List.intercalate, strip_tags, stripTagsF]
  | cons p g ih =>
    intro h
    cases g with
    | nil => simp [List.intercalate, List.intersperse, cleanLen]
    | cons q g' =>
      have hstep : List.intercalate ['\n'] (p :: q :: g')
          = p ++ '\n' :: List.intercalate ['\n'] (q :: g') := by
        simp [List.intercalate, List.intersperse]
      rw [hstep]
      have hp := h p (List.mem_cons_self p _)
      have hd := strip_tags_append p (Or.inr hp)
        ('\n' :: List.intercalate ['\n'] (q :: g'))
      have hn : strip_tags ('\n' :: List.intercalate ['\n'] (q :: g'))
          = '\n' :: strip_tags (List.intercalate ['\n'] (q :: g')) :=
        strip_tags_cons_ne _ _ (by decide)
      have hih := ih (fun x hx => h x (List.mem_cons_of_mem _ hx))
      simp only [cleanLen] at hih ⊢
      rw [hd, hn]
      simp only [List.map_cons, List.sum_cons, cleanLen] at hih ⊢
      simp only [List.length_append, List.length_cons]
      omega

theorem endsGt_paraShape (a inner : Chars) :
    ('<' :: 'p' :: (a ++ '>' :: (inner ++ ['<', '/', 'p', '>']))).getLast?
      = some '>' := by
  have e : '<' :: 'p' :: (a ++ '>' :: (inner ++ ['<', '/', 'p', '>']))
      = ('<' :: 'p' :: (a ++ '>' :: inner)) ++ ['<', '/', 'p', '>'] := by simp
  rw [e, List.getLast?_append]
  rfl

theorem matchPAt_endsGt (s full inner rest : Chars)
    (h : matchPAt s = some (full, inner, rest)) : full.getLast? = some '>' := by
  unfold matchPAt at h
  split at h
  · dsimp only at h
    split at h
    · split at h
      · simp only [Option.some.injEq, Prod.mk.injEq] at h
        obtain ⟨h1, -, -⟩ := h
        subst h1
        exact endsGt_paraShape _ _
      · cases h
    · cases h
  · cases h

theorem findMatchesF_endsGt :
    ∀ (fuel : Nat) (s : Chars) (m : Chars × Chars),
      m ∈ findMatchesF fuel s → m.1.getLast? = some '>' := by
  intro fuel
  induction fuel with
  | zero =>
    intro s m h
    simp [findMatchesF] at h
  | succ fuel ih =>
    intro s m h
    cases s with
    | nil => simp [findMatchesF] at h
    | cons c cs =>
      simp only [findMatchesF] at h
      cases hm : matchPAt (c :: cs) with
      | none =>
        rw [hm] at h
        exact ih cs m h
      | some x =>
        obtain ⟨full, inner, rest⟩ := x
        rw [hm] at h
        rcases List.mem_cons.mp h with rfl | h'
        · exact matchPAt_endsGt (c :: cs) full inner rest hm
        · exact ih rest m h'

theorem paragraphs_endsGt (content : Chars) (p : Chars)
    (hp : p ∈ paragraphs content) : p.getLast? = some '>' := by
  unfold paragraphs at hp
  rcases List.mem_filterMap.mp hp with ⟨m, hm, hmp⟩
  by_cases hcond : pyStrip (strip_tags m.2) ≠ []
  · rw [if_pos hcond] at hmp
    have h1 : m.1 = p := by
      injection hmp
    subst h1
    exact findMatchesF_endsGt _ _ m hm
  · rw [if_neg hcond] at hmp
    cases hmp

theorem groupLoop_dropLast_sum (target M : Nat) :
    ∀ (ps : List Chars) (gs : List (List Chars)) (cur : List Chars),
      (∀ g ∈ gs, target ≤ (g.map cleanLen).sum) →
      ∀ g ∈ (groupLoop target M ps gs cur ((cur.map cleanLen).sum)).dropLast,
        target ≤ (g.map cleanLen).sum := by
  intro ps
  induction ps with
  | nil =>
    intro gs cur hgs g hg
    simp only [groupLoop] at hg
    by_cases h : cur = []
    · rw [if_pos h] at hg
      exact hgs g (List.dropLast_subset gs hg)
    · rw [if_neg h, List.dropLast_concat] at hg
      exact hgs g hg
  | cons p ps ih =>
    intro gs cur hgs g hg
    simp only [groupLoop] at hg
    by_cases hc : (target ≤ (cur.map cleanLen).sum + cleanLen p ∧
        gs.length < M - 1) ∨ 3 * target ≤ 2 * ((cur.map cleanLen).sum + cleanLen p)
    · rw [if_pos hc] at hg
      refine ih (gs ++ [cur ++ [p]]) [] ?_ g hg
      intro g' hg'
      rcases List.mem_append.mp hg' with h1 | h2
      · exact hgs g' h1
      · rcases List.mem_singleton.mp h2 with rfl
        have hsum : ((cur ++ [p]).map cleanLen).sum
            = (cur.map cleanLen).sum + cleanLen p := by simp
        rw [hsum]
        rcases hc with ⟨h, _⟩ | h
        · exact h
        · omega
    · rw [if_neg hc] at hg
      have hsum : (cur.map cleanLen).sum + cleanLen p
          = ((cur ++ [p]).map cleanLen).sum := by simp
      rw [hsum] at hg
      exact ih gs (cur ++ [p]) hgs g hg

theorem getD_mem_dropLast {α : Type} (l : List α) (d : α) :
    ∀ (i : Nat), i + 1 < l.length → l.getD i d ∈ l.dropLast := by
  induction l with
  | nil =>
    intro i h
    simp at h
  | cons a l ih =>
    intro i h
    cases l with
    | nil => simp at h
    | cons b l' =>
      cases i with
      | zero => simp [List.getD]
      | succ i' =>
        have h' : i' + 1 < (b :: l').length := by
          simp only [List.length_cons] at h ⊢
          omega
        have hm := ih i' h'
        simp only [List.getD_cons_succ]
        rw [List.dropLast_cons₂]
        exact List.mem_cons_of_mem a hm

theorem getD_take_map (f : List Chars → Chars) (l : List (List Chars)) :
    ∀ (n i : Nat), i < n → i < l.length →
      ((l.map f).take n).getD i [] = f (l.getD i []) := by
  induction l with
  | nil =>
    intro n i _ h
    simp at h
  | cons a l ih =>
    intro n i hn hl
    cases n with
    | zero => exact absurd hn (by omega)
    | succ m =>
      cases i with
      | zero => simp
      | succ j =>
        simp only [List.map_cons, List.take_succ_cons, List.getD_cons_succ]
        exact ih m j (by omega) (by simpa using hl)

theorem core_nonlast_cleanLen (content : Chars) (K M : Nat) (i : Nat)
    (h : i + 1 < (splitGroupsCore content K M).length) :
    targetLength content K M
      ≤ cleanLen (List.intercalate ['\n']
          ((splitGroupsCore content K M).getD i [])) := by
  have hmem : (splitGroupsCore content K M).getD i []
      ∈ (splitGroupsCore content K M).dropLast :=
    getD_mem_dropLast _ [] i h
  have hsum : targetLength content K M
      ≤ (((splitGroupsCore content K M).getD i []).map cleanLen).sum := by
    have hinv := groupLoop_dropLast_sum (targetLength content K M) M
      (paragraphs content) [] [] (by intro g hg; cases hg)
    exact hinv _ hmem
  have hend : ∀ p ∈ (splitGroupsCore content K M).getD i [],
      p.getLast? = some '>' := by
    intro p hp
    apply paragraphs_endsGt content
    have hflat : p ∈ (splitGroupsCore content K M).flatten :=
      List.mem_flatten.mpr ⟨_, List.dropLast_subset _ hmem, hp⟩
    have hj : (splitGroupsCore content K M).flatten = paragraphs content := by
      unfold splitGroupsCore
      rw [groupLoop_join]
      simp
    rwa [hj] at hflat
  exact le_trans hsum (strip_tags_intercalate_ge _ hend)

/-- C4: the splitter returns at most max_groups groups, and every group
except possibly the last has clean (tag-stripped) length at least
min(min_group_chars, target_length).  Since target_length is defined as a
max with min_group_chars, that minimum equals min_group_chars, and the
bound holds even without the "unless the input itself is shorter than K"
escape clause of the claim (the hypothesis 1 ≤ max_groups reflects that
max_groups = 0 would raise ZeroDivisionError in the source). -/
theorem segmenter_bounds (content : Chars) (K M : Nat) (hM : 1 ≤ M) :
    (split_into_paragraph_groups content K M).length ≤ M ∧
    ∀ i, i + 1 < (split_into_paragraph_groups content K M).length →
      min K (targetLength content K M)
        ≤ cleanLen ((split_into_paragraph_groups content K M).getD i []) := by
  unfold split_into_paragraph_groups
  by_cases h1 : findMatches content = []
  · rw [if_pos h1]
    by_cases h2 : pyStrip content = []
    · rw [if_pos h2]
      refine ⟨by simp, ?_⟩
      intro i hi
      simp at hi
    · rw [if_neg h2]
      refine ⟨by simpa using hM, ?_⟩
      intro i hi
      simp only [List.length_cons, List.length_nil] at hi
      omega
  · rw [if_neg h1]
    by_cases h2 : paragraphs content = []
    · rw [if_pos h2]
      refine ⟨by simp, ?_⟩
      intro i hi
      simp at hi
    · rw [if_neg h2]
      constructor
      · rw [List.length_take]
        exact min_le_left _ _
      · intro i hi
        rw [List.length_take, List.length_map] at hi
        have h3 := lt_min_iff.mp hi
        have hic : i + 1 < (splitGroupsCore content K M).length := h3.2
        rw [getD_take_map (fun g => List.intercalate ['\n'] g)
          (splitGroupsCore content K M) M i (by omega) (by omega)]
        exact le_trans (min_le_right _ _) (core_nonlast_cleanLen content K M i hic)

theorem segmenter_bounds_witness :
    (split_into_paragraph_groups "<p>ab</p><p>cd</p>".toList 3 2).length ≤ 2 ∧
    ∀ i, i + 1 < (split_into_paragraph_groups "<p>ab</p><p>cd</p>".toList 3 2).length →
      min 3 (targetLength "<p>ab</p><p>cd</p>".toList 3 2)
        ≤ cleanLen ((split_into_paragraph_groups "<p>ab</p><p>cd</p>".toList 3 2).getD i []) :=
  segmenter_bounds "<p>ab</p><p>cd</p>".toList 3 2 (by decide)
